import Mathlib

/-!
Verification of the equilibrium-computation core of
`Counter_examples_non-optimality_GLS.ipynb`.

The notebook computes Nash equilibria of a strategic data-contribution game:
each agent chooses a measurement precision, the shared estimation cost is
`trace(M⁻¹) + Σ_i D_i²/L_i` with `M = Σ_i L_i · outer(X_i, X_i)`, and the
equilibrium is found by minimising an exact potential function under box
bounds.  We embed the numerical code over the real numbers: vectors of
length `n` are functions `Fin n → ℝ`, the data matrix is `Fin n → Fin d → ℝ`,
and the scipy minimiser `opt.minimize` (an external library routine) is an
abstract oracle `Minimizer n` taking the objective, the starting point, the
box bounds and the tolerance, and returning the reported solution `sol.x`.
-/

namespace GLS

open Finset Matrix

/-- Translation of `privacy_cost(l, exponent, scaling_factor=1)`:
returns `(l/scaling_factor)**exponent`.  The python default argument
`scaling_factor=1` becomes an explicit third argument; every call site in the
notebook uses the default, and the embedding passes `1` there. -/
noncomputable def privacy_cost (l expo scaling_factor : ℝ) : ℝ :=
  (l / scaling_factor) ^ expo

/-- The weighted information matrix `var` accumulated inside
`estimation_cost`: `var = Σ_i L_i * np.tensordot(X_i, X_i, axes=0)`,
the outer product being `Matrix.vecMulVec`. -/
noncomputable def informationMatrix {n d : ℕ} (L : Fin n → ℝ)
    (X : Fin n → Fin d → ℝ) : Matrix (Fin d) (Fin d) ℝ :=
  ∑ i, L i • Matrix.vecMulVec (X i) (X i)

/-- Translation of `estimation_cost(L, X, D)`:
`GLS_cost = np.trace(np.matrix(var)**(-1))` plus
`D_cost = sum(D[i]**2/L[i])`. -/
noncomputable def estimation_cost {n d : ℕ} (L : Fin n → ℝ)
    (X : Fin n → Fin d → ℝ) (D : Fin n → ℝ) : ℝ :=
  (informationMatrix L X)⁻¹.trace + ∑ i, D i ^ 2 / L i

/-- Translation of `potential(L, X, D, exponents)`:
`indiv_cost + estim_cost` with
`indiv_cost = np.sum([privacy_cost(L[i], exponents[i]) for i in range(len(L))])`. -/
noncomputable def potential {n d : ℕ} (L : Fin n → ℝ) (X : Fin n → Fin d → ℝ)
    (D : Fin n → ℝ) (exponents : Fin n → ℝ) : ℝ :=
  (∑ i, privacy_cost (L i) (exponents i) 1) + estimation_cost L X D

/-- Abstract model of `scipy.optimize.minimize`: given the objective, the
starting point `L0`, the per-coordinate box bounds `bnds` and the tolerance
`tol`, it returns the solution vector `sol.x` it reports at termination.
The repository treats this external routine as a black box. -/
def Minimizer (n : ℕ) : Type :=
  ((Fin n → ℝ) → ℝ) → (Fin n → ℝ) → (Fin n → ℝ × ℝ) → ℝ → (Fin n → ℝ)

/-- Translation of `covarianceEquilibrium(X, D, exponents)`:
`bnds = [[1e-10, 1]] * n`, `L0 = np.ones(n)`, `tol = 1e-20`,
`sol = opt.minimize(potential, L0, args=(X, D, exponents), bounds=bnds,
tol=tol)`, returning `(estimation_cost(sol.x, X, D), sol.x)`. -/
noncomputable def covarianceEquilibrium {n d : ℕ} (minimize : Minimizer n)
    (X : Fin n → Fin d → ℝ) (D : Fin n → ℝ) (exponents : Fin n → ℝ) :
    ℝ × (Fin n → ℝ) :=
  let bnds : Fin n → ℝ × ℝ := fun _ => ((1e-10 : ℝ), (1 : ℝ))
  let L0 : Fin n → ℝ := fun _ => 1
  let tol : ℝ := 1e-20
  let solx := minimize (fun L => potential L X D exponents) L0 bnds tol
  (estimation_cost solx X D, solx)

/-- Documented behaviour of `scipy.optimize.minimize` with a bounded method:
it returns a point inside the box whenever the box is nonempty.  This is the
only property of the external optimizer the bound claims rely on. -/
def RespectsBounds {n : ℕ} (minimize : Minimizer n) : Prop :=
  ∀ f L0 bnds tol, (∀ i : Fin n, (bnds i).1 ≤ (bnds i).2) →
    ∀ i, (bnds i).1 ≤ minimize f L0 bnds tol i ∧
      minimize f L0 bnds tol i ≤ (bnds i).2

/-- A concrete bounds-respecting oracle (clamps the start into the box),
used to instantiate hypotheses about the abstract minimiser. -/
def clampMinimizer (n : ℕ) : Minimizer n :=
  fun _ L0 bnds _ i => max ((bnds i).1) (min ((bnds i).2) (L0 i))

/-- A trivial oracle that just returns the starting point. -/
def startMinimizer (n : ℕ) : Minimizer n :=
  fun _ L0 _ _ => L0

/-- The d×d weighted information matrix written entrywise, exactly as the
specification describes it: `M_{a b} = Σ_i L_i · X_i[a] · X_i[b]`. -/
noncomputable def specInformationMatrix {n d : ℕ} (L : Fin n → ℝ)
    (X : Fin n → Fin d → ℝ) : Matrix (Fin d) (Fin d) ℝ :=
  Matrix.of fun a b => ∑ i, L i * (X i a * X i b)

theorem informationMatrix_apply {n d : ℕ} (L : Fin n → ℝ)
    (X : Fin n → Fin d → ℝ) (a b : Fin d) :
    informationMatrix L X a b = ∑ i, L i * (X i a * X i b) := by
  simp [informationMatrix, Matrix.sum_apply, Matrix.vecMulVec_apply]

theorem informationMatrix_eq_spec {n d : ℕ} (L : Fin n → ℝ)
    (X : Fin n → Fin d → ℝ) :
    informationMatrix L X = specInformationMatrix L X := by
  ext a b
  simp [informationMatrix_apply, specInformationMatrix]

/-- Claim C1: for strictly positive precisions `L`, data `X` and perturbation
`D`, with the weighted information matrix `M = Σ_i L_i · outer(X_i, X_i)`
invertible, `estimation_cost L X D` equals `trace(M⁻¹) + Σ_i D_i²/L_i`,
where `M` is written entrywise as the specification states it. -/
theorem estimation_cost_spec {n d : ℕ} (L : Fin n → ℝ)
    (X : Fin n → Fin d → ℝ) (D : Fin n → ℝ)
    (hL : ∀ i, 0 < L i) (hM : IsUnit (specInformationMatrix L X).det) :
    estimation_cost L X D =
      (specInformationMatrix L X)⁻¹.trace + ∑ i, D i ^ 2 / L i := by
  rw [estimation_cost, informationMatrix_eq_spec]

def oneL : Fin 1 → ℝ := fun _ => 1

def oneX : Fin 1 → Fin 1 → ℝ := fun _ _ => 1

def oneD : Fin 1 → ℝ := fun _ => 1

theorem det_informationMatrix_one :
    (informationMatrix oneL oneX).det = 1 := by
  simp [Matrix.det_fin_one, informationMatrix_apply, oneL, oneX]

theorem estimation_cost_spec_witness :
    estimation_cost oneL oneX oneD =
      (specInformationMatrix oneL oneX)⁻¹.trace + ∑ i, oneD i ^ 2 / oneL i :=
  estimation_cost_spec oneL oneX oneD (fun _ => one_pos)
    (by rw [← informationMatrix_eq_spec, det_informationMatrix_one]
        exact isUnit_one)

/-- Claim C2: the potential is `estimation_cost` plus the sum of per-agent
privacy costs, and updating a single coordinate `j` of `L` leaves every other
agent's privacy-cost term evaluated at its original precision: only agent
`j`'s privacy term and the shared estimation-cost term involve the new
value. -/
theorem potential_separable {n d : ℕ} (L : Fin n → ℝ) (X : Fin n → Fin d → ℝ)
    (D : Fin n → ℝ) (exponents : Fin n → ℝ) (j : Fin n) (v : ℝ) :
    potential L X D exponents =
      estimation_cost L X D + ∑ i, privacy_cost (L i) (exponents i) 1 ∧
    potential (Function.update L j v) X D exponents =
      estimation_cost (Function.update L j v) X D +
        privacy_cost v (exponents j) 1 +
        ∑ i ∈ Finset.univ.erase j, privacy_cost (L i) (exponents i) 1 := by
  constructor
  · rw [potential, add_comm]
  · rw [potential, add_comm]
    have hsum : ∑ i, privacy_cost (Function.update L j v i) (exponents i) 1 =
        privacy_cost v (exponents j) 1 +
          ∑ i ∈ Finset.univ.erase j, privacy_cost (L i) (exponents i) 1 := by
      rw [← Finset.add_sum_erase _ _ (Finset.mem_univ j),
        Function.update_same]
      congr 1
      exact Finset.sum_congr rfl fun i hi => by
        rw [Function.update_noteq (Finset.ne_of_mem_erase hi)]
    rw [hsum, add_assoc]

/-- Claim C3: the first component returned by `covarianceEquilibrium` is
exactly `estimation_cost` evaluated at the returned precision vector
`sol.x`, whatever the optimizer reports. -/
theorem covarianceEquilibrium_fst {n d : ℕ} (minimize : Minimizer n)
    (X : Fin n → Fin d → ℝ) (D : Fin n → ℝ) (exponents : Fin n → ℝ) :
    (covarianceEquilibrium minimize X D exponents).1 =
      estimation_cost (covarianceEquilibrium minimize X D exponents).2 X D :=
  rfl

/-- Claim C4: if the optimizer oracle honours nonempty box bounds, then every
coordinate of the precision vector returned by `covarianceEquilibrium` lies
in the configured interval `[1e-10, 1]`. -/
theorem covarianceEquilibrium_bounds {n d : ℕ} (minimize : Minimizer n)
    (hm : RespectsBounds minimize) (X : Fin n → Fin d → ℝ) (D : Fin n → ℝ)
    (exponents : Fin n → ℝ) (i : Fin n) :
    (1e-10 : ℝ) ≤ (covarianceEquilibrium minimize X D exponents).2 i ∧
      (covarianceEquilibrium minimize X D exponents).2 i ≤ 1 :=
  hm (fun L => potential L X D exponents) (fun _ => 1)
    (fun _ => ((1e-10 : ℝ), (1 : ℝ))) (1e-20) (fun _ => by norm_num) i

theorem clampMinimizer_respectsBounds (n : ℕ) :
    RespectsBounds (clampMinimizer n) := by
  intro f L0 bnds tol hb i
  refine ⟨le_max_left _ _, max_le (hb i) (min_le_left _ _)⟩

theorem covarianceEquilibrium_bounds_witness :
    (1e-10 : ℝ) ≤ (covarianceEquilibrium (clampMinimizer 1) oneX oneD oneL).2 0 ∧
      (covarianceEquilibrium (clampMinimizer 1) oneX oneD oneL).2 0 ≤ 1 :=
  covarianceEquilibrium_bounds (clampMinimizer 1)
    (clampMinimizer_respectsBounds 1) oneX oneD oneL 0

/-- Claim C10: the estimation cost depends on the perturbation only through
the squares `D_i²`, so negating `D` changes nothing; consequently the solver,
being a deterministic function of its inputs, returns identical results for
`D` and `-D`. -/
theorem estimation_cost_neg {n d : ℕ} (minimize : Minimizer n)
    (L : Fin n → ℝ) (X : Fin n → Fin d → ℝ) (D : Fin n → ℝ)
    (exponents : Fin n → ℝ) :
    estimation_cost L X (-D) = estimation_cost L X D ∧
      covarianceEquilibrium minimize X (-D) exponents =
        covarianceEquilibrium minimize X D exponents := by
  have hcost : ∀ L' : Fin n → ℝ, estimation_cost L' X (-D) =
      estimation_cost L' X D := by
    intro L'
    simp [estimation_cost]
  refine ⟨hcost L, ?_⟩
  have hpot : (fun L' => potential L' X (-D) exponents) =
      (fun L' => potential L' X D exponents) := by
    funext L'
    simp [potential, hcost L']
  simp only [covarianceEquilibrium, hpot, hcost]

theorem dotProduct_informationMatrix_mulVec {n d : ℕ} (L : Fin n → ℝ)
    (X : Fin n → Fin d → ℝ) (y : Fin d → ℝ) :
    dotProduct y (informationMatrix L X *ᵥ y) =
      ∑ i, L i * dotProduct (X i) y ^ 2 := by
  have h : ∀ a, (informationMatrix L X *ᵥ y) a =
      ∑ i, L i * (X i a * dotProduct (X i) y) := by
    intro a
    simp only [Matrix.mulVec, dotProduct, informationMatrix_apply,
      Finset.sum_mul, Finset.mul_sum]
    rw [Finset.sum_comm]
    refine Finset.sum_congr rfl fun i _ => Finset.sum_congr rfl fun b _ => by
      ring
  simp only [dotProduct, h, Finset.mul_sum]
  rw [Finset.sum_comm]
  refine Finset.sum_congr rfl fun i _ => ?_
  simp only [dotProduct, Finset.mul_sum, Finset.sum_mul, sq]
  refine Finset.sum_congr rfl fun a _ => ?_
  refine Finset.sum_congr rfl fun b _ => by ring

theorem informationMatrix_posSemidef {n d : ℕ} (L : Fin n → ℝ)
    (X : Fin n → Fin d → ℝ) (hL : ∀ i, 0 ≤ L i) :
    (informationMatrix L X).PosSemidef := by
  constructor
  · ext a b
    simp only [Matrix.conjTranspose_apply, informationMatrix_apply,
      star_trivial]
    refine Finset.sum_congr rfl fun i _ => by ring
  · intro y
    have hstar : star y = y := by
      funext a
      simp
    rw [hstar, dotProduct_informationMatrix_mulVec]
    exact Finset.sum_nonneg fun i _ => mul_nonneg (hL i) (sq_nonneg _)

theorem posSemidef_trace_nonneg {d : ℕ} {A : Matrix (Fin d) (Fin d) ℝ}
    (hA : A.PosSemidef) : 0 ≤ A.trace := by
  rw [Matrix.trace]
  refine Finset.sum_nonneg fun i _ => ?_
  have h := hA.2 (Pi.single i 1)
  have hstar : star (Pi.single i 1 : Fin d → ℝ) = Pi.single i 1 := by
    funext a
    simp
  rw [hstar] at h
  have hv : dotProduct (Pi.single i (1 : ℝ)) (A *ᵥ Pi.single i 1) = A i i := by
    simp [dotProduct, Matrix.mulVec, Pi.single_apply, Finset.mul_sum]
  rw [hv] at h
  exact h

/-- Claim C5: for strictly positive precisions, an invertible weighted
information matrix, and a nonzero perturbation vector, the estimation cost
is strictly positive: `trace(M⁻¹)` is nonnegative because `M⁻¹` inherits
positive semidefiniteness from `M`, and some term `D_i²/L_i` is strictly
positive. -/
theorem estimation_cost_pos {n d : ℕ} (L : Fin n → ℝ)
    (X : Fin n → Fin d → ℝ) (D : Fin n → ℝ) (hL : ∀ i, 0 < L i)
    (hM : IsUnit (informationMatrix L X).det) (hD : D ≠ 0) :
    0 < estimation_cost L X D := by
  have hpsd : (informationMatrix L X).PosSemidef :=
    informationMatrix_posSemidef L X fun i => (hL i).le
  have htr : 0 ≤ (informationMatrix L X)⁻¹.trace :=
    posSemidef_trace_nonneg hpsd.inv
  have hsum : 0 < ∑ i, D i ^ 2 / L i := by
    obtain ⟨i, hi⟩ := Function.ne_iff.mp hD
    refine Finset.sum_pos'
      (fun j _ => div_nonneg (sq_nonneg _) (hL j).le)
      ⟨i, Finset.mem_univ i, div_pos ?_ (hL i)⟩
    exact lt_of_le_of_ne (sq_nonneg _) (Ne.symm (pow_ne_zero 2 hi))
  rw [estimation_cost]
  linarith

theorem estimation_cost_pos_witness : 0 < estimation_cost oneL oneX oneD := by
  refine estimation_cost_pos oneL oneX oneD (fun _ => one_pos)
    (by rw [det_informationMatrix_one]; exact isUnit_one) ?_
  intro h
  have h0 := congrFun h 0
  norm_num [oneD] at h0

/-- Fallible view of `estimation_cost`, following the evaluation order of the
source: `np.matrix(var)**(-1)` raises `LinAlgError` when `var` is singular,
and `D[i]**2/L[i]` with `L[i] = 0` produces a non-finite float (`inf`/`nan`).
`none` stands for both outcomes: an exception or a non-finite result; `some`
is an ordinary finite real. -/
noncomputable def estimation_costE {n d : ℕ} (L : Fin n → ℝ)
    (X : Fin n → Fin d → ℝ) (D : Fin n → ℝ) : Option ℝ :=
  if (informationMatrix L X).det = 0 then none
  else if ∃ i, L i = 0 then none
  else some (estimation_cost L X D)

/-- Claim C6: the fallible estimation cost yields no ordinary finite real
when the information matrix is singular or some precision is zero, and under
the precondition that every precision is strictly positive and the matrix is
invertible the error branch is unreachable and the result is the finite real
`estimation_cost L X D`. -/
theorem estimation_costE_spec {n d : ℕ} (L : Fin n → ℝ)
    (X : Fin n → Fin d → ℝ) (D : Fin n → ℝ) :
    ((informationMatrix L X).det = 0 ∨ (∃ i, L i = 0) →
      estimation_costE L X D = none) ∧
    ((∀ i, 0 < L i) → IsUnit (informationMatrix L X).det →
      estimation_costE L X D = some (estimation_cost L X D)) := by
  constructor
  · intro h
    rcases h with hdet | hzero
    · rw [estimation_costE, if_pos hdet]
    · by_cases hdet : (informationMatrix L X).det = 0
      · rw [estimation_costE, if_pos hdet]
      · rw [estimation_costE, if_neg hdet, if_pos hzero]
  · intro hL hM
    have hdet : (informationMatrix L X).det ≠ 0 := hM.ne_zero
    have hzero : ¬∃ i, L i = 0 := fun ⟨i, hi⟩ => (hL i).ne' hi
    rw [estimation_costE, if_neg hdet, if_neg hzero]

theorem estimation_costE_spec_witness :
    estimation_costE oneL oneX oneD = some (estimation_cost oneL oneX oneD) :=
  (estimation_costE_spec oneL oneX oneD).2 (fun _ => one_pos)
    (by rw [det_informationMatrix_one]; exact isUnit_one)

/-- Number of agents in the 1D examples: two for `example_number == 1`
(data/exponent/perturbation arrays of length 2), four otherwise. -/
def nEx (example_number : ℕ) : ℕ :=
  if example_number = 1 then 2 else 4

/-- Translation of `X_1D_examples(example_number)`: `[[1],[1]]` for example 1,
`[[1],[1],[1],[1]]` otherwise. -/
def X_1D_examples (example_number : ℕ) :
    Fin (nEx example_number) → Fin 1 → ℝ :=
  if h : example_number = 1 then
    fun i => ![![1], ![1]] (Fin.cast (by simp [nEx, h]) i)
  else
    fun i => ![![1], ![1], ![1], ![1]] (Fin.cast (by simp [nEx, h]) i)

/-- Translation of `exponents_1D_examples(example_number)`: `[1.01, 20]` for
example 1, `[1.01, 1.01, 1.1, 1.1]` otherwise. -/
noncomputable def exponents_1D_examples (example_number : ℕ) :
    Fin (nEx example_number) → ℝ :=
  if h : example_number = 1 then
    fun i => ![1.01, 20] (Fin.cast (by simp [nEx, h]) i)
  else
    fun i => ![1.01, 1.01, 1.1, 1.1] (Fin.cast (by simp [nEx, h]) i)

/-- Translation of `perturbation_matrix_1Dexamples(example_number)`:
`[[1],[-1]]` for example 1, `[[1],[-1],[0],[0]]` otherwise.  The source
builds an (n,1) column matrix that downstream code uses entrywise; the
embedding keeps its column. -/
def perturbation_matrix_1Dexamples (example_number : ℕ) :
    Fin (nEx example_number) → ℝ :=
  if h : example_number = 1 then
    fun i => ![1, -1] (Fin.cast (by simp [nEx, h]) i)
  else
    fun i => ![1, -1, 0, 0] (Fin.cast (by simp [nEx, h]) i)

/-- Model of `np.linspace(start, stop, num)`: `num` evenly spaced samples,
sample `k` at `start + (stop - start) * k / (num - 1)`. -/
noncomputable def linspace (start stop : ℝ) (num : ℕ) : Fin num → ℝ :=
  fun k => start + (stop - start) * (k : ℝ) / ((num : ℝ) - 1)

/-- Translation of `compute_for_example(deltaMax, example_number)`:
`deltas = np.linspace(0, deltaMax, 100)` and, for each `delta`, the pair
`covarianceEquilibrium(X, np.sqrt(delta) * D, E)`; returns the sequences of
magnitudes, costs and precision vectors.  The example number comes first so
that the abstract optimizer can be typed by the number of agents. -/
noncomputable def compute_for_example (example_number : ℕ)
    (minimize : Minimizer (nEx example_number)) (deltaMax : ℝ) :
    (Fin 100 → ℝ) × (Fin 100 → ℝ) ×
      (Fin 100 → Fin (nEx example_number) → ℝ) :=
  let X := X_1D_examples example_number
  let E := exponents_1D_examples example_number
  let D := perturbation_matrix_1Dexamples example_number
  let deltas : Fin 100 → ℝ := linspace 0 deltaMax 100
  let costs_precs := fun k =>
    covarianceEquilibrium minimize X
      (fun i => Real.sqrt (deltas k) * D i) E
  (deltas, fun k => (costs_precs k).1, fun k => (costs_precs k).2)

/-- Claim C7: the sweep driver produces exactly 100 magnitudes (the index
type `Fin 100`), evenly spaced — sample `k` is `deltaMax·k/99`, consecutive
samples differ by `deltaMax/99` — with first sample `0` and last `deltaMax`,
and the recorded cost and precision vector at each magnitude `delta` are the
pair returned by `covarianceEquilibrium` on the example's data with
perturbation `sqrt(delta)` times the example's perturbation column. -/
theorem compute_for_example_spec (example_number : ℕ)
    (minimize : Minimizer (nEx example_number)) (deltaMax : ℝ)
    (hmax : 0 ≤ deltaMax) :
    (∀ k : Fin 100, (compute_for_example example_number minimize deltaMax).1 k
        = deltaMax * (k : ℝ) / 99) ∧
    (compute_for_example example_number minimize deltaMax).1 0 = 0 ∧
    (compute_for_example example_number minimize deltaMax).1 99 = deltaMax ∧
    (∀ k : Fin 99,
      (compute_for_example example_number minimize deltaMax).1 k.succ -
        (compute_for_example example_number minimize deltaMax).1 k.castSucc
        = deltaMax / 99) ∧
    (∀ k : Fin 100,
      ((compute_for_example example_number minimize deltaMax).2.1 k,
       (compute_for_example example_number minimize deltaMax).2.2 k) =
        covarianceEquilibrium minimize (X_1D_examples example_number)
          (fun i => Real.sqrt
              ((compute_for_example example_number minimize deltaMax).1 k) *
            perturbation_matrix_1Dexamples example_number i)
          (exponents_1D_examples example_number)) := by
  refine ⟨fun k => ?_, ?_, ?_, fun k => ?_, fun k => rfl⟩
  · show (0 : ℝ) + (deltaMax - 0) * (k : ℝ) / ((100 : ℝ) - 1) = _
    ring
  · show (0 : ℝ) + (deltaMax - 0) * ((0 : Fin 100) : ℝ) / ((100 : ℝ) - 1) = 0
    norm_num
  · show (0 : ℝ) + (deltaMax - 0) * ((99 : Fin 100) : ℝ) / ((100 : ℝ) - 1)
        = deltaMax
    have h99 : ((99 : Fin 100) : ℕ) = 99 := rfl
    rw [h99]
    norm_num
  · show ((0 : ℝ) + (deltaMax - 0) * ((k.succ : Fin 100) : ℝ) / ((100 : ℝ) - 1))
        - ((0 : ℝ) + (deltaMax - 0) * ((k.castSucc : Fin 100) : ℝ) /
            ((100 : ℝ) - 1)) = deltaMax / 99
    have hs : ((k.succ : Fin 100) : ℝ) = (k : ℝ) + 1 := by
      simp [Fin.val_succ]
    have hc : ((k.castSucc : Fin 100) : ℝ) = (k : ℝ) := by
      simp
    rw [hs, hc]
    ring

theorem compute_for_example_spec_witness :
    (compute_for_example 1 (startMinimizer (nEx 1)) 1).1 99 = 1 :=
  (compute_for_example_spec 1 (startMinimizer (nEx 1)) 1
    (by norm_num)).2.2.1

/-- Data matrix of `compute_costs_and_precisions_d_plus_1`:
`X = [e(0), …, e(d-1), np.ones(d)/d]`, where `e(i)` is the i-th standard
basis vector. -/
noncomputable def X_d_plus_1 (d : ℕ) : Fin (d + 1) → Fin d → ℝ :=
  fun i j =>
    if (i : ℕ) < d then (if (j : ℕ) = (i : ℕ) then 1 else 0) else 1 / d

/-- Perturbation vector of `compute_costs_and_precisions_d_plus_1`:
`D = np.ones(d+1)*np.sqrt(delta)` with `D[d] = -d*np.sqrt(delta)`. -/
noncomputable def D_d_plus_1 (d : ℕ) (delta : ℝ) : Fin (d + 1) → ℝ :=
  fun i =>
    if (i : ℕ) = d then -(d : ℝ) * Real.sqrt delta else Real.sqrt delta

/-- Exponent vector of `compute_costs_and_precisions_d_plus_1`:
`exponents = np.ones(d+1)*exps[0]` with `exponents[d] = exps[1]`. -/
def exponents_d_plus_1 (d : ℕ) (exps : ℝ × ℝ) : Fin (d + 1) → ℝ :=
  fun i => if (i : ℕ) = d then exps.2 else exps.1

/-- Translation of `compute_costs_and_precisions_d_plus_1(d, delta, exps)`:
assembles the `d+1`-agent scenario and runs the equilibrium solver. -/
noncomputable def compute_costs_and_precisions_d_plus_1 (d : ℕ)
    (minimize : Minimizer (d + 1)) (delta : ℝ) (exps : ℝ × ℝ) :
    ℝ × (Fin (d + 1) → ℝ) :=
  covarianceEquilibrium minimize (X_d_plus_1 d) (D_d_plus_1 d delta)
    (exponents_d_plus_1 d exps)

/-- Claim C8: in the `d+1`-agent family (for `d ≥ 1`, `delta ≥ 0`) the first
`d` agents observe the standard basis vectors and the last the all-ones
vector over `d`; the perturbation is `sqrt(delta)` on the first `d` agents
and `-d·sqrt(delta)` on the last, so the net bias `Σ_i D_i·X_i` is the zero
vector; the exponents are `exps.1` on the first `d` agents and `exps.2` on
the last; and the builder feeds exactly these to the solver. -/
theorem compute_costs_and_precisions_d_plus_1_spec (d : ℕ) (delta : ℝ)
    (exps : ℝ × ℝ) (hd : 1 ≤ d) (hdelta : 0 ≤ delta) :
    (∀ i : Fin (d + 1), (i : ℕ) < d → ∀ j : Fin d,
      X_d_plus_1 d i j = if (j : ℕ) = (i : ℕ) then 1 else 0) ∧
    (∀ j : Fin d, X_d_plus_1 d (Fin.last d) j = 1 / d) ∧
    (∀ i : Fin (d + 1), (i : ℕ) < d →
      D_d_plus_1 d delta i = Real.sqrt delta) ∧
    D_d_plus_1 d delta (Fin.last d) = -(d : ℝ) * Real.sqrt delta ∧
    (∀ j : Fin d, ∑ i, D_d_plus_1 d delta i * X_d_plus_1 d i j = 0) ∧
    (∀ i : Fin (d + 1), (i : ℕ) < d →
      exponents_d_plus_1 d exps i = exps.1) ∧
    exponents_d_plus_1 d exps (Fin.last d) = exps.2 ∧
    (∀ minimize : Minimizer (d + 1),
      compute_costs_and_precisions_d_plus_1 d minimize delta exps =
        covarianceEquilibrium minimize (X_d_plus_1 d) (D_d_plus_1 d delta)
          (exponents_d_plus_1 d exps)) := by
  have hd0 : (d : ℝ) ≠ 0 := Nat.cast_ne_zero.mpr (by omega)
  refine ⟨fun i hi j => by simp [X_d_plus_1, hi], fun j => ?_,
    fun i hi => by simp [D_d_plus_1, hi.ne], ?_, fun j => ?_,
    fun i hi => by simp [exponents_d_plus_1, hi.ne], ?_, fun minimize => rfl⟩
  · simp [X_d_plus_1]
  · simp [D_d_plus_1]
  · rw [Fin.sum_univ_castSucc]
    have hlast : D_d_plus_1 d delta (Fin.last d) *
        X_d_plus_1 d (Fin.last d) j = -Real.sqrt delta := by
      simp [D_d_plus_1, X_d_plus_1]
      field_simp
    have hcast : ∀ i : Fin d,
        D_d_plus_1 d delta (Fin.castSucc i) *
          X_d_plus_1 d (Fin.castSucc i) j =
          if j = i then Real.sqrt delta else 0 := by
      intro i
      have hii : (i : ℕ) < d := i.isLt
      simp only [D_d_plus_1, X_d_plus_1, Fin.coe_castSucc, if_neg hii.ne,
        if_pos hii]
      by_cases h : j = i
      · subst h
        simp
      · have hne : ¬((j : ℕ) = (i : ℕ)) := fun hv => h (Fin.val_inj.mp hv)
        simp [h, hne]
    rw [hlast, Finset.sum_congr rfl fun i _ => hcast i, Finset.sum_ite_eq]
    simp
  · simp [exponents_d_plus_1]

theorem compute_costs_and_precisions_d_plus_1_spec_witness :
    ∑ i, D_d_plus_1 1 1 i * X_d_plus_1 1 i 0 = 0 :=
  (compute_costs_and_precisions_d_plus_1_spec 1 1 (20, 1.5)
    (by norm_num) (by norm_num)).2.2.2.2.1 0

/-- Data matrix of `compute_costs_and_precisions`:
`X = [e(0), …, e(d-1), np.ones(d), np.ones(d)]`. -/
def X_d_plus_2 (d : ℕ) : Fin (d + 2) → Fin d → ℝ :=
  fun i j =>
    if (i : ℕ) < d then (if (j : ℕ) = (i : ℕ) then 1 else 0) else 1

/-- Perturbation vector of `compute_costs_and_precisions`:
`D = np.zeros(d+2)` with `D[d] = delta` and `D[d+1] = -delta` — linear in
`delta`, not square-rooted. -/
def D_d_plus_2 (d : ℕ) (delta : ℝ) : Fin (d + 2) → ℝ :=
  fun i =>
    if (i : ℕ) = d then delta else if (i : ℕ) = d + 1 then -delta else 0

/-- Exponent vector of `compute_costs_and_precisions`:
`exponents = np.ones(d+2)*exps[0]` with `exponents[d+1] = exps[1]`. -/
def exponents_d_plus_2 (d : ℕ) (exps : ℝ × ℝ) : Fin (d + 2) → ℝ :=
  fun i => if (i : ℕ) = d + 1 then exps.2 else exps.1

/-- Translation of `compute_costs_and_precisions(d, delta, exps)`:
assembles the `d+2`-agent scenario and runs the equilibrium solver. -/
noncomputable def compute_costs_and_precisions (d : ℕ)
    (minimize : Minimizer (d + 2)) (delta : ℝ) (exps : ℝ × ℝ) :
    ℝ × (Fin (d + 2) → ℝ) :=
  covarianceEquilibrium minimize (X_d_plus_2 d) (D_d_plus_2 d delta)
    (exponents_d_plus_2 d exps)

/-- Claim C9: in the `d+2`-agent family (for `d ≥ 1`, `delta ≥ 0`) the first
`d` agents observe the standard basis vectors and the last two both observe
the all-ones vector; the perturbation is zero except `+delta` on agent `d`
and `-delta` on agent `d+1`, and it scales linearly in `delta` (no square
root, unlike the other families); and the builder feeds exactly these to the
solver. -/
theorem compute_costs_and_precisions_spec (d : ℕ) (delta : ℝ)
    (exps : ℝ × ℝ) (hd : 1 ≤ d) (hdelta : 0 ≤ delta) :
    (∀ i : Fin (d + 2), (i : ℕ) < d → ∀ j : Fin d,
      X_d_plus_2 d i j = if (j : ℕ) = (i : ℕ) then 1 else 0) ∧
    (∀ j : Fin d, X_d_plus_2 d ⟨d, by omega⟩ j = 1 ∧
      X_d_plus_2 d ⟨d + 1, by omega⟩ j = 1) ∧
    D_d_plus_2 d delta ⟨d, by omega⟩ = delta ∧
    D_d_plus_2 d delta ⟨d + 1, by omega⟩ = -delta ∧
    (∀ i : Fin (d + 2), (i : ℕ) ≠ d → (i : ℕ) ≠ d + 1 →
      D_d_plus_2 d delta i = 0) ∧
    (∀ i : Fin (d + 2), D_d_plus_2 d delta i = delta * D_d_plus_2 d 1 i) ∧
    (∀ minimize : Minimizer (d + 2),
      compute_costs_and_precisions d minimize delta exps =
        covarianceEquilibrium minimize (X_d_plus_2 d) (D_d_plus_2 d delta)
          (exponents_d_plus_2 d exps)) := by
  refine ⟨fun i hi j => by simp [X_d_plus_2, hi], fun j => ?_, ?_, ?_,
    fun i hi hi1 => by simp [D_d_plus_2, hi, hi1], fun i => ?_,
    fun minimize => rfl⟩
  · constructor <;> simp [X_d_plus_2]
  · simp [D_d_plus_2]
  · simp [D_d_plus_2]
  · rcases Nat.lt_or_ge (i : ℕ) d with h | h
    · have h1 : (i : ℕ) ≠ d + 1 := by omega
      simp [D_d_plus_2, h.ne, h1]
    · rcases Nat.eq_or_lt_of_le h with h1 | h1
      · simp [D_d_plus_2, h1.symm]
      · have h2 : (i : ℕ) = d + 1 := by omega
        simp [D_d_plus_2, h2]

theorem compute_costs_and_precisions_spec_witness :
    D_d_plus_2 1 1 ⟨1, by omega⟩ = 1 :=
  (compute_costs_and_precisions_spec 1 1 (20, 1.5)
    (by norm_num) (by norm_num)).2.2.1

end GLS
